import Mathlib

/-!
Shallow embedding of the detection–distance fusion pipeline of `src/main.py`
(the methods `ObjectDetector.calculate_distance`, `ObjectDetector.detect_objects`
and `DataOrganizer.organize_data`), together with theorems checking the
natural-language specification against it.

Conventions of the embedding:
* depth samples are naturals (the camera delivers unsigned 16-bit millimetres,
  `0` is the no-reading sentinel);
* the floating-point distances and box coordinates of the Python code are
  rationals, and `np.mean` / `round` are the exact rational mean and rational
  round-half-to-even;
* rational constants produced by the code are written in the kernel-reducible
  normal form `Rat.divInt` so that concrete runs evaluate by `decide`; the
  theorems `ratMean_eq` and `div1000_eq` prove these forms equal to the plain
  field divisions they stand for;
* the `while` padding loop of `organize_data` is given explicit fuel, `none`
  standing for non-termination; `padLoop_stalled_none` and `padLoop_fuel_ge`
  justify that three units of fuel decide the loop exactly.
-/

/-- One co-registered depth frame: `data i j` is the millimetre reading at row
`i`, column `j` of an `H × W` grid; `0` is the "no reading" sentinel. -/
structure DepthMap where
  H : ℕ
  W : ℕ
  data : ℕ → ℕ → ℕ

/-- Python/NumPy basic slice semantics `a[start:stop]` (unit step) on an axis of
length `n`: a negative bound counts from the end of the axis, then both bounds
are clamped to `[0, n]`, and the result is the (possibly empty) run of indices
from the resolved start up to the resolved stop. -/
def pySliceIdx (n : ℕ) (start stop : ℤ) : List ℕ :=
  let s : ℕ := (if start < 0 then max ((n : ℤ) + start) 0 else min start (n : ℤ)).toNat
  let e : ℕ := (if stop < 0 then max ((n : ℤ) + stop) 0 else min stop (n : ℤ)).toNat
  List.range' s (e - s)

/-- Python `int(x)` on a rational: truncation toward zero. -/
def pyInt (q : ℚ) : ℤ := q.num.tdiv q.den

/-- The samples of `depth_image[y - r : y + r + 1, x - r : x + r + 1]` in row
major order: the neighborhood `ObjectDetector.calculate_distance` slices out of
the depth image (`r` = `self.range_value`). -/
def region (m : DepthMap) (r : ℕ) (x y : ℤ) : List ℕ :=
  (pySliceIdx m.H (y - r) (y + r + 1)).flatMap fun i =>
    (pySliceIdx m.W (x - r) (x + r + 1)).map fun j => m.data i j

/-- Arithmetic mean of a list of naturals as a rational (`np.mean`), in the
kernel-reducible form `Rat.divInt`; `ratMean_eq` proves it equals
`sum / length`. -/
def ratMean (l : List ℕ) : ℚ := Rat.divInt l.sum l.length

/-- `ObjectDetector.calculate_distance(depth_image, x, y)`:
cast the center to integers, slice the square neighborhood of side
`2 * range_value + 1`, keep the non-zero samples, and return their mean, or `0`
when there is none (`np.mean(distances) if distances.size != 0 else 0`). -/
def calculate_distance (m : DepthMap) (range_value : ℕ) (x y : ℚ) : ℚ :=
  let distances := (region m range_value (pyInt x) (pyInt y)).filter fun v => v != 0
  if distances.length ≠ 0 then ratMean distances else 0

/-- One YOLO detection row `(x_min, y_min, x_max, y_max, conf, class)` with its
resolved class label (`result.names[int(detection[5])]`); the confidence score
is unused by the fusion code and not carried. -/
structure Detection where
  xmin : ℚ
  ymin : ℚ
  xmax : ℚ
  ymax : ℚ
  label : String

/-- `(detection[2] - detection[0]) * (detection[3] - detection[1])`. -/
def boxArea (d : Detection) : ℚ := (d.xmax - d.xmin) * (d.ymax - d.ymin)

/-- `self.rect_threshold = int(1280 / 8 * 720 / 8)`, that is `160 * 90`. -/
def rect_threshold : ℚ := 14400

/-- `self.range_value = 3`. -/
def range_value : ℕ := 3

/-- The `continue` test of the detection loop in isolation: keep exactly the
detections whose box area is not below the threshold. -/
def detection_filter (minArea : ℚ) (dets : List Detection) : List Detection :=
  dets.filter fun d => !decide (boxArea d < minArea)

/-- `x_center = (detection[0] + detection[2]) / 2`. -/
def centerX (d : Detection) : ℚ := (d.xmin + d.xmax) / 2

/-- `y_center = (detection[1] + detection[3]) / 2`. -/
def centerY (d : Detection) : ℚ := (d.ymin + d.ymax) / 2

/-- The fusion loop of `ObjectDetector.detect_objects`: for each detection, skip
it when its box area is below `rect_threshold` (`continue`), otherwise append
`(label, calculate_distance(depth_image, x_center, y_center))`. The rendered
image also returned by the Python method carries no fusion data and is not
modelled. -/
def detect_objects (dets : List Detection) (m : DepthMap) : List (String × ℚ) :=
  match dets with
  | [] => []
  | d :: rest =>
    if boxArea d < rect_threshold then detect_objects rest m
    else (d.label, calculate_distance m range_value (centerX d) (centerY d))
      :: detect_objects rest m

/-- A value of the per-frame JSON record: a number, or the string `"NA"`. -/
inductive JsonValue where
  | num (q : ℚ)
  | na
deriving DecidableEq

/-- Round half to even (Python's `round` tie rule) of the rational `a / b`,
`b` a positive denominator: the floor when the fractional part is below one
half, the ceiling when above, the even neighbour on a tie. -/
def roundHalfEvenInt (a : ℤ) (b : ℕ) : ℤ :=
  let f := Int.fdiv a b
  let rem := a - f * b
  if 2 * rem < (b : ℤ) then f
  else if (b : ℤ) < 2 * rem then f + 1
  else if f % 2 = 0 then f else f + 1

/-- Python `round(q, 2)`: round `q * 100` half to even, divide by `100`.
`q * 100` is the rational `(q.num * 100) / q.den`, written that way so the
definition evaluates in the kernel. -/
def pyRound2 (q : ℚ) : ℚ := Rat.divInt (roundHalfEvenInt (q.num * 100) q.den) 100

/-- `q / 1000` in the kernel-reducible form `Rat.divInt`; `div1000_eq` proves
it equal to the field division `q / 1000`. -/
def div1000 (q : ℚ) : ℚ := Rat.divInt q.num (q.den * 1000)

/-- `f"NA_{n}"`. -/
def naKey (n : ℕ) : String := "NA_" ++ toString n

/-- Python dict insertion `d[k] = v` on a record kept in insertion order: when
the key exists its value is overwritten in place (the position is kept),
otherwise the pair is appended at the end. -/
def insertKV (d : List (String × JsonValue)) (k : String) (v : JsonValue) :
    List (String × JsonValue) :=
  if d.any fun p => p.1 == k then d.map fun p => if p.1 == k then (k, v) else p
  else d ++ [(k, v)]

/-- The keys of a record, in insertion order. -/
def keys (d : List (String × JsonValue)) : List String := d.map Prod.fst

/-- `sorted(detected_objects, key=lambda x: x[1])`: Python's sort is stable, and
a stable sort by a fixed key is unique, so the stable `List.insertionSort` on
the distance component (stability is proved in `sortByDist_stable`) is the
faithful model. -/
def sortByDist (xs : List (String × ℚ)) : List (String × ℚ) :=
  xs.insertionSort fun a b => a.2 ≤ b.2

/-- `round(obj[1] / 1000, 2) if obj[1] != 0 else "NA"`. -/
def entryVal (dmm : ℚ) : JsonValue :=
  if dmm != 0 then JsonValue.num (pyRound2 (div1000 dmm)) else JsonValue.na

/-- The `while len(detected_data) < 3:` padding loop of `organize_data`, with
explicit fuel; `none` models non-termination. Each iteration inserts the key
`f"NA_{len(detected_data)}"`: when that key is already present the dict does
not grow and the loop never ends (`padLoop_stalled_none`), otherwise at most
three iterations are needed, so fuel `3` decides the loop exactly
(`padLoop_fuel_ge`). -/
def padLoop : ℕ → List (String × JsonValue) → Option (List (String × JsonValue))
  | 0, d => if d.length < 3 then none else some d
  | fuel + 1, d =>
    if d.length < 3 then padLoop fuel (insertKV d (naKey d.length) JsonValue.na)
    else some d

/-- `DataOrganizer.organize_data(detected_objects)`: sort by distance, take the
first three, build the dict entry by entry (`label → round(mm / 1000, 2)`, or
`"NA"` for a zero distance), then pad with `f"NA_{len}"` keys while fewer than
three entries exist. `none` models the non-termination of the padding loop. -/
def organize_data (detected_objects : List (String × ℚ)) :
    Option (List (String × JsonValue)) :=
  padLoop 3 (((sortByDist detected_objects).take 3).foldl
    (fun d obj => insertKV d obj.1 (entryVal obj.2)) [])

/-- The first three fused objects in distance order: the entries the dict of
`organize_data` is built from. -/
def top3 (xs : List (String × ℚ)) : List (String × ℚ) := (sortByDist xs).take 3

/-- The placeholder tail the padding loop appends to a record of size `n`:
`(f"NA_{n}", "NA"), (f"NA_{n+1}", "NA"), ...` up to three entries. -/
def padsFrom (n : ℕ) : List (String × JsonValue) :=
  (List.range (3 - n)).map fun i => (naKey (n + i), JsonValue.na)

/-- The full square neighborhood of side `2 * r + 1` around `(x, y)` named by
the spec (§4.1): rows `y - r .. y + r`, columns `x - r .. x + r` (in `ℕ`, the
lower bounds saturate at `0`). -/
def squareSamples (m : DepthMap) (r x y : ℕ) : List ℕ :=
  (List.range' (y - r) (2 * r + 1)).flatMap fun i =>
    (List.range' (x - r) (2 * r + 1)).map fun j => m.data i j

/-- Following the spec's edge policy (§4.1): the neighborhood coordinates
clipped to the valid index range, rows `max 0 (y - r) .. min (y + r) (H - 1)`,
columns `max 0 (x - r) .. min (x + r) (W - 1)`. -/
def specClippedSamples (m : DepthMap) (r x y : ℕ) : List ℕ :=
  (List.range' (y - r) (min (y + r) (m.H - 1) + 1 - (y - r))).flatMap fun i =>
    (List.range' (x - r) (min (x + r) (m.W - 1) + 1 - (x - r))).map fun j =>
      m.data i j

/-- Following the spec's words (§4.1): the mean of the non-zero samples of the
clipped neighborhood, `invalid` (= `0`) when there is none. The comparison
definition for the edge-policy claim. -/
def specClippedMean (m : DepthMap) (r x y : ℕ) : ℚ :=
  let ds := (specClippedSamples m r x y).filter fun v => v != 0
  if ds.length ≠ 0 then ratMean ds else 0

/-- A 200 × 200 depth map whose even columns read `1000` mm and whose odd
columns are holes: around any interior center the non-zero samples are all
`1000`. -/
def stripeMap : DepthMap := ⟨200, 200, fun _ j => if j % 2 = 0 then 1000 else 0⟩

/-- A 10 × 10 depth map reading `1000` mm everywhere. -/
def fullMap10 : DepthMap := ⟨10, 10, fun _ _ => 1000⟩

instance : IsTotal (String × ℚ) (fun a b => a.2 ≤ b.2) :=
  ⟨fun a b => le_total a.2 b.2⟩

instance : IsTrans (String × ℚ) (fun a b => a.2 ≤ b.2) :=
  ⟨fun _ _ _ h h' => le_trans h h'⟩

/-- `ratMean` is the plain arithmetic mean `sum / length`. -/
theorem ratMean_eq (l : List ℕ) : ratMean l = (l.sum : ℚ) / (l.length : ℚ) := by
  rw [ratMean, Rat.divInt_eq_div, Int.cast_natCast, Int.cast_natCast]

/-- `div1000` is the plain field division by `1000`. -/
theorem div1000_eq (q : ℚ) : div1000 q = q / 1000 := by
  rw [div1000, Rat.divInt_eq_div]
  push_cast
  rw [← div_div, Rat.num_div_den]

/-- `pyInt` is the identity on (casts of) naturals. -/
theorem pyInt_natCast (n : ℕ) : pyInt (n : ℚ) = (n : ℤ) := by
  rw [pyInt, Rat.num_natCast, Rat.den_natCast]
  exact Int.tdiv_one n

/-- A non-empty list of non-zero naturals has a positive sum. -/
theorem list_sum_pos (l : List ℕ) (h0 : ∀ v ∈ l, v ≠ 0) (hne : l ≠ []) :
    0 < l.sum := by
  cases l with
  | nil => exact absurd rfl hne
  | cons a t =>
    have ha : a ≠ 0 := h0 a (List.mem_cons_self a t)
    simp only [List.sum_cons]
    omega

/-- The mean of a non-empty list of non-zero naturals is positive. -/
theorem ratMean_pos (l : List ℕ) (h0 : ∀ v ∈ l, v ≠ 0) (hne : l ≠ []) :
    0 < ratMean l := by
  rw [ratMean_eq]
  have hlen : 0 < l.length := List.length_pos.2 hne
  exact div_pos (by exact_mod_cast list_sum_pos l h0 hne) (by exact_mod_cast hlen)

/-- A slice with natural bounds, the lower one inside the axis, resolves to the
run from `a` to `min b n`. -/
theorem pySliceIdx_natBounds (n a b : ℕ) (ha : a ≤ n) :
    pySliceIdx n (a : ℤ) (b : ℤ) = List.range' a (min b n - a) := by
  unfold pySliceIdx
  rw [if_neg (by omega : ¬ (a : ℤ) < 0), if_neg (by omega : ¬ (b : ℤ) < 0)]
  rw [min_eq_left (by exact_mod_cast ha : (a : ℤ) ≤ (n : ℤ))]
  rw [← Nat.cast_min, Int.toNat_natCast, Int.toNat_natCast]

/-- A slice whose negative start wraps past its stop is empty: this is what a
start `coord - r < 0` produces on an axis of length at least `2 r + 1`. -/
theorem pySliceIdx_neg_start (n : ℕ) (s e : ℤ) (hs : s < 0) (he : 0 ≤ e)
    (hw : e ≤ (n : ℤ) + s) : pySliceIdx n s e = [] := by
  unfold pySliceIdx
  rw [if_pos hs, if_neg (by omega : ¬ e < 0)]
  rw [List.range'_eq_nil]
  rcases le_total e (n : ℤ) with h | h
  · rw [min_eq_left h]
    rcases le_total ((n : ℤ) + s) 0 with h' | h'
    · omega
    · rw [max_eq_left h']
      omega
  · rw [min_eq_right h]
    rw [max_eq_left (by omega : (0 : ℤ) ≤ (n : ℤ) + s)]
    omega

/-- For an interior center (the whole square fits), the sliced region is the
full square neighborhood of the spec. -/
theorem region_interior (m : DepthMap) (r x y : ℕ) (hx1 : r ≤ x)
    (hx2 : x + r < m.W) (hy1 : r ≤ y) (hy2 : y + r < m.H) :
    region m r (x : ℤ) (y : ℤ) = squareSamples m r x y := by
  unfold region squareSamples
  have hy' : ((y : ℤ) - r) = ((y - r : ℕ) : ℤ) := by omega
  have hx' : ((x : ℤ) - r) = ((x - r : ℕ) : ℤ) := by omega
  have hy'' : ((y : ℤ) + r + 1) = ((y + r + 1 : ℕ) : ℤ) := by omega
  have hx'' : ((x : ℤ) + r + 1) = ((x + r + 1 : ℕ) : ℤ) := by omega
  rw [hy', hy'', hx', hx'', pySliceIdx_natBounds m.H _ _ (by omega),
    pySliceIdx_natBounds m.W _ _ (by omega)]
  have h1 : min (y + r + 1) m.H - (y - r) = 2 * r + 1 := by omega
  have h2 : min (x + r + 1) m.W - (x - r) = 2 * r + 1 := by omega
  rw [h1, h2]

/-- For a center on the map with both lower margins at least `r`, the sliced
region is exactly the spec's clipped neighborhood (only the upper bounds can
overflow, and the slice clamps them). -/
theorem region_clipped (m : DepthMap) (r x y : ℕ) (hx1 : r ≤ x) (hx2 : x < m.W)
    (hy1 : r ≤ y) (hy2 : y < m.H) :
    region m r (x : ℤ) (y : ℤ) = specClippedSamples m r x y := by
  unfold region specClippedSamples
  have hy' : ((y : ℤ) - r) = ((y - r : ℕ) : ℤ) := by omega
  have hx' : ((x : ℤ) - r) = ((x - r : ℕ) : ℤ) := by omega
  have hy'' : ((y : ℤ) + r + 1) = ((y + r + 1 : ℕ) : ℤ) := by omega
  have hx'' : ((x : ℤ) + r + 1) = ((x + r + 1 : ℕ) : ℤ) := by omega
  rw [hy', hy'', hx', hx'', pySliceIdx_natBounds m.H _ _ (by omega),
    pySliceIdx_natBounds m.W _ _ (by omega)]
  have h1 : min (y + r + 1) m.H - (y - r) = min (y + r) (m.H - 1) + 1 - (y - r) := by
    omega
  have h2 : min (x + r + 1) m.W - (x - r) = min (x + r) (m.W - 1) + 1 - (x - r) := by
    omega
  rw [h1, h2]

/-- A center within `r` of the top or left edge makes the sliced region empty on
any map of side at least `2 r + 1`: the negative slice start wraps around. -/
theorem region_wrap_empty (m : DepthMap) (r x y : ℕ)
    (h : (x < r ∧ 2 * r + 1 ≤ m.W) ∨ (y < r ∧ 2 * r + 1 ≤ m.H)) :
    region m r (x : ℤ) (y : ℤ) = [] := by
  unfold region
  rcases h with ⟨hx, hw⟩ | ⟨hy, hh⟩
  · have hcol : pySliceIdx m.W ((x : ℤ) - r) ((x : ℤ) + r + 1) = [] :=
      pySliceIdx_neg_start m.W _ _ (by omega) (by omega) (by omega)
    rw [hcol]
    simp
  · have hrow : pySliceIdx m.H ((y : ℤ) - r) ((y : ℤ) + r + 1) = [] :=
      pySliceIdx_neg_start m.H _ _ (by omega) (by omega) (by omega)
    rw [hrow]
    simp

/-- C5: for a center whose full square neighborhood of side `2 r + 1` lies in
the depth map, `calculate_distance` returns the invalid sentinel `0` if and
only if every sample of the neighborhood is the zero sentinel, and otherwise
returns the arithmetic mean of the non-zero samples. -/
theorem sample_mean_of_interior (m : DepthMap) (r x y : ℕ)
    (hx1 : r ≤ x) (hx2 : x + r < m.W) (hy1 : r ≤ y) (hy2 : y + r < m.H) :
    (calculate_distance m r x y = 0 ↔ ∀ v ∈ squareSamples m r x y, v = 0) ∧
    (((squareSamples m r x y).filter fun v => v != 0) ≠ [] →
      calculate_distance m r x y =
        ((((squareSamples m r x y).filter fun v => v != 0).sum : ℚ)) /
          ((((squareSamples m r x y).filter fun v => v != 0).length : ℚ))) := by
  have hreg : region m r ((x : ℕ) : ℤ) ((y : ℕ) : ℤ) = squareSamples m r x y :=
    region_interior m r x y hx1 hx2 hy1 hy2
  simp only [calculate_distance, pyInt_natCast, hreg]
  set ds := (squareSamples m r x y).filter fun v => v != 0 with hds
  constructor
  · by_cases h : ds.length ≠ 0
    · have hne : ds ≠ [] := fun hnil => h (by rw [hnil]; rfl)
      have hpos : 0 < ratMean ds :=
        ratMean_pos ds (fun v hv => by simpa using (List.mem_filter.1 hv).2) hne
      rw [if_pos h]
      constructor
      · intro h0
        exact absurd h0 (ne_of_gt hpos)
      · intro hall
        exfalso
        apply hne
        rw [hds, List.filter_eq_nil_iff]
        intro a ha
        simpa using hall a ha
    · have hnil : ds = [] := List.length_eq_zero.1 (not_ne_iff.1 h)
      rw [if_neg h]
      constructor
      · intro _ v hv
        by_contra hv0
        have hmem : v ∈ ds := List.mem_filter.2 ⟨hv, by simpa using hv0⟩
        rw [hnil] at hmem
        exact absurd hmem (List.not_mem_nil v)
      · intro _
        rfl
  · intro hne
    have hlen : ds.length ≠ 0 := fun hl => hne (List.length_eq_zero.1 hl)
    rw [if_pos hlen, ratMean_eq]

/-- C5 witness: the invalid-iff-all-zero equivalence at a concrete interior
center of the striped example map, whose 7 × 7 neighborhood at `(100, 100)`
has its non-zero samples all equal to `1000` and samples to `1000` mm. -/
theorem sample_mean_of_interior_witness :
    (calculate_distance stripeMap 3 100 100 = 0 ↔
      ∀ v ∈ squareSamples stripeMap 3 100 100, v = 0) ∧
    calculate_distance stripeMap 3 100 100 = 1000 :=
  ⟨(sample_mean_of_interior stripeMap 3 100 100 (by decide) (by decide)
    (by decide) (by decide)).1, by decide⟩

/-- C10: the fused-object invalid sentinel is the number `0`, the same value as
the depth map's no-reading sentinel: `calculate_distance` returns `0` exactly
when the gathered neighborhood holds no non-zero sample, and any valid result
is strictly positive, so the `obj[1] != 0` test of `organize_data`
unambiguously identifies invalid objects. -/
theorem distance_zero_sentinel (m : DepthMap) (r : ℕ) (x y : ℚ) :
    (calculate_distance m r x y = 0 ↔
      ∀ v ∈ region m r (pyInt x) (pyInt y), v = 0) ∧
    (calculate_distance m r x y ≠ 0 → 0 < calculate_distance m r x y) := by
  simp only [calculate_distance]
  set ds := (region m r (pyInt x) (pyInt y)).filter fun v => v != 0 with hds
  by_cases h : ds.length ≠ 0
  · have hne : ds ≠ [] := fun hnil => h (by rw [hnil]; rfl)
    have hpos : 0 < ratMean ds :=
      ratMean_pos ds (fun v hv => by simpa using (List.mem_filter.1 hv).2) hne
    rw [if_pos h]
    refine ⟨⟨fun h0 => absurd h0 (ne_of_gt hpos), fun hall => ?_⟩, fun _ => hpos⟩
    exfalso
    apply hne
    rw [hds, List.filter_eq_nil_iff]
    intro a ha
    simpa using hall a ha
  · have hnil : ds = [] := List.length_eq_zero.1 (not_ne_iff.1 h)
    rw [if_neg h]
    refine ⟨⟨fun _ v hv => ?_, fun _ => rfl⟩, fun hc => absurd rfl hc⟩
    by_contra hv0
    have hmem : v ∈ ds := List.mem_filter.2 ⟨hv, by simpa using hv0⟩
    rw [hnil] at hmem
    exact absurd hmem (List.not_mem_nil v)

/-- C3 (amended): only the bottom/right overflow is clipped. For a center on
the map whose left and top margins are at least the radius, the sampler equals
the spec's clipped-neighborhood mean; but a center within the radius of the top
or left edge (`x < r` or `y < r`), on a map of side at least `2 r + 1`, makes
the negative slice start wrap around, the gathered region is empty, and the
sampler returns the invalid sentinel `0` instead of the clipped mean. -/
theorem edge_policy_split :
    (∀ (m : DepthMap) (r x y : ℕ), r ≤ x → x < m.W → r ≤ y → y < m.H →
      calculate_distance m r x y = specClippedMean m r x y) ∧
    (∀ (m : DepthMap) (r x y : ℕ),
      (x < r ∧ 2 * r + 1 ≤ m.W) ∨ (y < r ∧ 2 * r + 1 ≤ m.H) →
      calculate_distance m r x y = 0) := by
  constructor
  · intro m r x y hx1 hx2 hy1 hy2
    simp only [calculate_distance, specClippedMean, pyInt_natCast,
      region_clipped m r x y hx1 hx2 hy1 hy2]
  · intro m r x y h
    simp only [calculate_distance, pyInt_natCast, region_wrap_empty m r x y h]
    rfl

/-- C3 counterexample: on the all-`1000` 10 × 10 map, the center `(0, 0)` with
radius 3 has a non-empty in-bounds clipped neighborhood of mean `1000`, yet
`calculate_distance` returns `0` — the claimed top/left clipping does not
happen. -/
theorem edge_policy_cex :
    calculate_distance fullMap10 3 0 0 = 0 ∧
      specClippedMean fullMap10 3 0 0 = 1000 ∧ (0 : ℚ) ≠ 1000 := by
  refine ⟨by decide, by decide, by decide⟩

/-- The dict-membership test of `insertKV` is membership in `keys`. -/
theorem any_keys_iff (d : List (String × JsonValue)) (k : String) :
    (d.any fun p => p.1 == k) = true ↔ k ∈ keys d := by
  rw [keys, List.any_eq_true]
  constructor
  · rintro ⟨p, hp, hpk⟩
    exact List.mem_map.2 ⟨p, hp, beq_iff_eq.1 hpk⟩
  · intro hk
    rcases List.mem_map.1 hk with ⟨p, hp, hpk⟩
    exact ⟨p, hp, beq_iff_eq.2 hpk⟩

/-- Overwriting an existing key leaves the key list unchanged. -/
theorem keys_insertKV_of_mem (d : List (String × JsonValue)) (k : String)
    (v : JsonValue) (h : k ∈ keys d) : keys (insertKV d k v) = keys d := by
  rw [insertKV, if_pos ((any_keys_iff d k).2 h)]
  rw [keys, keys, List.map_map]
  apply List.map_congr_left
  intro p _
  by_cases hpk : p.1 = k
  · simp [hpk]
  · simp [hpk]

/-- Overwriting an existing key leaves the record size unchanged. -/
theorem length_insertKV_of_mem (d : List (String × JsonValue)) (k : String)
    (v : JsonValue) (h : k ∈ keys d) : (insertKV d k v).length = d.length := by
  rw [insertKV, if_pos ((any_keys_iff d k).2 h)]
  exact List.length_map d _

/-- Inserting a fresh key appends the pair at the end. -/
theorem insertKV_of_not_mem (d : List (String × JsonValue)) (k : String)
    (v : JsonValue) (h : k ∉ keys d) : insertKV d k v = d ++ [(k, v)] := by
  rw [insertKV, if_neg (fun hc => h ((any_keys_iff d k).1 hc))]

/-- The inserted key is always a key of the result. -/
theorem mem_keys_insertKV_self (d : List (String × JsonValue)) (k : String)
    (v : JsonValue) : k ∈ keys (insertKV d k v) := by
  by_cases h : k ∈ keys d
  · rw [keys_insertKV_of_mem d k v h]
    exact h
  · rw [insertKV_of_not_mem d k v h]
    simp [keys]

/-- Insertion never removes a key. -/
theorem mem_keys_insertKV_of_mem (d : List (String × JsonValue)) (k k' : String)
    (v : JsonValue) (h : k' ∈ keys d) : k' ∈ keys (insertKV d k v) := by
  by_cases hk : k ∈ keys d
  · rw [keys_insertKV_of_mem d k v hk]
    exact h
  · rw [insertKV_of_not_mem d k v hk]
    simp [keys] at h ⊢
    exact Or.inl h

/-- Any key of the result is an old key or the inserted one. -/
theorem mem_keys_insertKV_elim (d : List (String × JsonValue)) (k k' : String)
    (v : JsonValue) (h : k' ∈ keys (insertKV d k v)) : k' ∈ keys d ∨ k' = k := by
  by_cases hk : k ∈ keys d
  · rw [keys_insertKV_of_mem d k v hk] at h
    exact Or.inl h
  · rw [insertKV_of_not_mem d k v hk] at h
    simp [keys] at h ⊢
    rcases h with h | h
    · exact Or.inl h
    · exact Or.inr h

/-- Insertion grows the record by at most one entry. -/
theorem length_insertKV_le (d : List (String × JsonValue)) (k : String)
    (v : JsonValue) : (insertKV d k v).length ≤ d.length + 1 := by
  by_cases h : k ∈ keys d
  · rw [length_insertKV_of_mem d k v h]
    omega
  · rw [insertKV_of_not_mem d k v h]
    simp

/-- Insertion preserves distinctness of the keys. -/
theorem nodup_keys_insertKV (d : List (String × JsonValue)) (k : String)
    (v : JsonValue) (h : (keys d).Nodup) : (keys (insertKV d k v)).Nodup := by
  by_cases hk : k ∈ keys d
  · rw [keys_insertKV_of_mem d k v hk]
    exact h
  · rw [insertKV_of_not_mem d k v hk]
    have : keys (d ++ [(k, v)]) = keys d ++ [k] := by simp [keys]
    rw [this]
    exact h.append (List.nodup_singleton k)
      (fun a ha hb => by simp at hb; exact hk (hb ▸ ha))

/-- `padsFrom` at a full record is empty. -/
theorem padsFrom_of_full (n : ℕ) (h : 3 ≤ n) : padsFrom n = [] := by
  simp [padsFrom, Nat.sub_eq_zero_of_le h]

/-- `padsFrom` peels off its first placeholder. -/
theorem padsFrom_succ (n : ℕ) (h : n < 3) :
    padsFrom n = (naKey n, JsonValue.na) :: padsFrom (n + 1) := by
  have h3 : 3 - n = (3 - (n + 1)) + 1 := by omega
  rw [padsFrom, h3, List.range_succ_eq_map, List.map_cons, List.map_map, padsFrom]
  congr 1
  apply List.map_congr_left
  intro i _
  simp only [Function.comp_apply]
  rw [show n + Nat.succ i = n + 1 + i by omega]

/-- The two placeholder keys generated after a one-entry record differ. -/
theorem naKey_small_ne (i j : ℕ) (hi : i < 3) (hj : j < 3) (hij : i ≠ j) :
    naKey i ≠ naKey j := by
  interval_cases i <;> interval_cases j <;> first | omega | decide

/-- Once the pad key collides with a present key the record never grows, so the
`while` loop runs forever: with any amount of fuel `padLoop` returns `none`. -/
theorem padLoop_stalled_none (fuel : ℕ) :
    ∀ d : List (String × JsonValue), d.length < 3 → naKey d.length ∈ keys d →
      padLoop fuel d = none := by
  induction fuel with
  | zero =>
    intro d h _
    simp [padLoop, if_pos h]
  | succ n ih =>
    intro d h hk
    simp only [padLoop, if_pos h]
    apply ih
    · rw [length_insertKV_of_mem d _ _ hk]
      exact h
    · rw [length_insertKV_of_mem d _ _ hk, keys_insertKV_of_mem d _ _ hk]
      exact hk

/-- Whenever the padding loop terminates it has appended exactly the
placeholder tail `padsFrom`. -/
theorem padLoop_some_eq (fuel : ℕ) :
    ∀ d r, d.length ≤ 3 → padLoop fuel d = some r →
      r = d ++ padsFrom d.length := by
  induction fuel with
  | zero =>
    intro d r h3 hr
    simp only [padLoop] at hr
    by_cases h : d.length < 3
    · rw [if_pos h] at hr
      exact absurd hr (by simp)
    · rw [if_neg h] at hr
      rw [padsFrom_of_full d.length (by omega), List.append_nil]
      exact (Option.some.inj hr).symm
  | succ n ih =>
    intro d r h3 hr
    simp only [padLoop] at hr
    by_cases h : d.length < 3
    · rw [if_pos h] at hr
      by_cases hk : naKey d.length ∈ keys d
      · have hnone := padLoop_stalled_none n (insertKV d (naKey d.length) JsonValue.na)
          (by rw [length_insertKV_of_mem d _ _ hk]; exact h)
          (by rw [length_insertKV_of_mem d _ _ hk, keys_insertKV_of_mem d _ _ hk]; exact hk)
        rw [hnone] at hr
        exact absurd hr (by simp)
      · rw [insertKV_of_not_mem d _ _ hk] at hr
        have hlen : (d ++ [(naKey d.length, JsonValue.na)]).length = d.length + 1 := by
          simp
        have hres := ih _ r (by rw [hlen]; omega) hr
        rw [hres, hlen, padsFrom_succ d.length h]
        simp
    · rw [if_neg h] at hr
      rw [padsFrom_of_full d.length (by omega), List.append_nil]
      exact (Option.some.inj hr).symm

/-- When none of the upcoming placeholder keys is already present, the padding
loop terminates within the record's missing-entry count and appends exactly
`padsFrom`. -/
theorem padLoop_succeeds (fuel : ℕ) :
    ∀ d, d.length ≤ 3 → 3 ≤ fuel + d.length →
      (∀ j, d.length ≤ j → j < 3 → naKey j ∉ keys d) →
      padLoop fuel d = some (d ++ padsFrom d.length) := by
  induction fuel with
  | zero =>
    intro d h3 hf _
    have h33 : d.length = 3 := by omega
    simp [padLoop, h33, padsFrom_of_full 3 le_rfl]
  | succ n ih =>
    intro d h3 hf hfresh
    by_cases h : d.length < 3
    · have hk : naKey d.length ∉ keys d := hfresh _ le_rfl h
      simp only [padLoop, if_pos h]
      rw [insertKV_of_not_mem d _ _ hk]
      have hlen : (d ++ [(naKey d.length, JsonValue.na)]).length = d.length + 1 := by
        simp
      have hres := ih (d ++ [(naKey d.length, JsonValue.na)])
        (by rw [hlen]; omega) (by rw [hlen]; omega) ?fresh
      · rw [hres, hlen, padsFrom_succ d.length h]
        simp
      case fresh =>
        intro j hj hj3
        rw [hlen] at hj
        have hkeys : keys (d ++ [(naKey d.length, JsonValue.na)]) =
            keys d ++ [naKey d.length] := by simp [keys]
        rw [hkeys]
        intro hmem
        rcases List.mem_append.1 hmem with hmem | hmem
        · exact hfresh j (by omega) hj3 hmem
        · simp at hmem
          exact naKey_small_ne j d.length hj3 h (by omega) hmem
    · have h33 : d.length = 3 := by omega
      simp [padLoop, if_neg h, h33, padsFrom_of_full 3 le_rfl]

/-- A full record is returned untouched whatever the fuel. -/
theorem padLoop_of_full (fuel : ℕ) (d : List (String × JsonValue))
    (h : ¬ d.length < 3) : padLoop fuel d = some d := by
  cases fuel with
  | zero => simp [padLoop, if_neg h]
  | succ n => simp [padLoop, if_neg h]

/-- The padding loop's result does not depend on the fuel once the fuel covers
the missing-entry count: the loop is deterministic, a non-stalling step fills
one missing entry, and a stalled state stays `none` under any fuel. -/
theorem padLoop_fuel_eq (f1 : ℕ) :
    ∀ (f2 : ℕ) (d : List (String × JsonValue)), 3 - d.length ≤ f1 →
      3 - d.length ≤ f2 → padLoop f1 d = padLoop f2 d := by
  induction f1 with
  | zero =>
    intro f2 d h1 _
    rw [padLoop_of_full 0 d (by omega), padLoop_of_full f2 d (by omega)]
  | succ n ih =>
    intro f2 d h1 h2
    by_cases h : d.length < 3
    · cases f2 with
      | zero => omega
      | succ m =>
        simp only [padLoop, if_pos h]
        by_cases hk : naKey d.length ∈ keys d
        · rw [padLoop_stalled_none n _
            (by rw [length_insertKV_of_mem d _ _ hk]; exact h)
            (by rw [length_insertKV_of_mem d _ _ hk, keys_insertKV_of_mem d _ _ hk]
                exact hk)]
          rw [padLoop_stalled_none m _
            (by rw [length_insertKV_of_mem d _ _ hk]; exact h)
            (by rw [length_insertKV_of_mem d _ _ hk, keys_insertKV_of_mem d _ _ hk]
                exact hk)]
        · apply ih
          · rw [insertKV_of_not_mem d _ _ hk]
            simp only [List.length_append, List.length_singleton]
            omega
          · rw [insertKV_of_not_mem d _ _ hk]
            simp only [List.length_append, List.length_singleton]
            omega
    · rw [padLoop_of_full _ d h, padLoop_of_full f2 d h]

/-- Three units of fuel decide the padding loop: more fuel never changes the
result, so `organize_data`'s `none` is exactly the non-termination of the
`while` loop. -/
theorem padLoop_fuel_ge (fuel : ℕ) (d : List (String × JsonValue))
    (hf : 3 ≤ fuel) : padLoop fuel d = padLoop 3 d :=
  padLoop_fuel_eq fuel 3 d (by omega) (by omega)

/-- The model of Python's `sorted` permutes its input. -/
theorem sortByDist_perm (xs : List (String × ℚ)) : (sortByDist xs).Perm xs :=
  List.perm_insertionSort _ xs

/-- The model of Python's `sorted` sorts the distances ascending. -/
theorem sortByDist_sorted (xs : List (String × ℚ)) :
    ((sortByDist xs).map Prod.snd).Sorted (· ≤ ·) := by
  have h := List.sorted_insertionSort (fun a b : String × ℚ => a.2 ≤ b.2) xs
  rw [List.Sorted, List.pairwise_map]
  exact h

/-- Inserting an element that compares no greater than every `p`-element puts
it in front of all of them: `filter p` sees it first. -/
theorem filter_orderedInsert_of_le (p : String × ℚ → Bool) (a : String × ℚ)
    (l : List (String × ℚ)) (ha : p a = true)
    (h : ∀ b, p b = true → a.2 ≤ b.2) :
    (List.orderedInsert (fun u v => u.2 ≤ v.2) a l).filter p =
      a :: l.filter p := by
  induction l with
  | nil => simp [List.orderedInsert, ha]
  | cons b t ih =>
    by_cases hab : a.2 ≤ b.2
    · simp only [List.orderedInsert, if_pos hab]
      simp [List.filter_cons, ha]
    · have hpb : p b = false := by
        by_contra hpb
        exact hab (h b (by simpa using hpb))
      simp only [List.orderedInsert, if_neg hab]
      rw [List.filter_cons_of_neg (by simp [hpb]), ih,
        List.filter_cons_of_neg (by simp [hpb])]

/-- Inserting an element `filter p` drops leaves the filtered list unchanged. -/
theorem filter_orderedInsert_of_neg (p : String × ℚ → Bool) (a : String × ℚ)
    (l : List (String × ℚ)) (ha : p a = false) :
    (List.orderedInsert (fun u v => u.2 ≤ v.2) a l).filter p = l.filter p := by
  induction l with
  | nil => simp [List.orderedInsert, ha]
  | cons b t ih =>
    by_cases hab : a.2 ≤ b.2
    · simp only [List.orderedInsert, if_pos hab]
      rw [List.filter_cons_of_neg (by simp [ha])]
    · simp only [List.orderedInsert, if_neg hab]
      rw [List.filter_cons, List.filter_cons, ih]

/-- Stability of the sort model: the elements of any one distance class appear
in the sorted list in their original order, as Python's stable `sorted`
guarantees. -/
theorem sortByDist_stable (xs : List (String × ℚ)) (dq : ℚ) :
    (sortByDist xs).filter (fun pq => pq.2 == dq) =
      xs.filter (fun pq => pq.2 == dq) := by
  induction xs with
  | nil => rfl
  | cons a t ih =>
    rw [sortByDist, List.insertionSort]
    by_cases hpa : (a.2 == dq) = true
    · rw [filter_orderedInsert_of_le _ a _ hpa ?hle]
      · rw [show List.insertionSort (fun u v : String × ℚ => u.2 ≤ v.2) t =
            sortByDist t from rfl, ih]
        simp [List.filter_cons, hpa]
      case hle =>
        intro b hb
        have hb' : b.2 = dq := beq_iff_eq.1 hb
        have ha' : a.2 = dq := beq_iff_eq.1 hpa
        rw [hb', ha']
    · have hpa' : (fun pq : String × ℚ => pq.2 == dq) a = false := by
        simpa using hpa
      rw [filter_orderedInsert_of_neg _ a _ hpa']
      rw [show List.insertionSort (fun u v : String × ℚ => u.2 ≤ v.2) t =
          sortByDist t from rfl, ih, List.filter_cons_of_neg (by simp [hpa'])]

/-- A key present before the dict-building fold is present after it. -/
theorem mem_keys_foldl_insert (l : List (String × ℚ)) :
    ∀ (init : List (String × JsonValue)) (k : String), k ∈ keys init →
      k ∈ keys (l.foldl (fun d obj => insertKV d obj.1 (entryVal obj.2)) init) := by
  induction l with
  | nil => intro init k h; exact h
  | cons p t ih =>
    intro init k h
    exact ih _ k (mem_keys_insertKV_of_mem init p.1 k (entryVal p.2) h)

/-- Every folded-in object leaves its label among the keys. -/
theorem label_mem_keys_foldl_insert (l : List (String × ℚ)) :
    ∀ (init : List (String × JsonValue)) (p : String × ℚ), p ∈ l →
      p.1 ∈ keys (l.foldl (fun d obj => insertKV d obj.1 (entryVal obj.2)) init) := by
  induction l with
  | nil => intro _ p h; exact absurd h (List.not_mem_nil p)
  | cons q t ih =>
    intro init p hp
    rcases List.mem_cons.1 hp with rfl | hp
    · exact mem_keys_foldl_insert t _ p.1
        (mem_keys_insertKV_self init p.1 (entryVal p.2))
    · exact ih _ p hp

/-- The dict-building fold grows the record by at most one entry per object. -/
theorem length_foldl_insert_le (l : List (String × ℚ)) :
    ∀ init : List (String × JsonValue),
      (l.foldl (fun d obj => insertKV d obj.1 (entryVal obj.2)) init).length ≤
        init.length + l.length := by
  induction l with
  | nil => intro init; simp
  | cons p t ih =>
    intro init
    calc (List.foldl _ (insertKV init p.1 (entryVal p.2)) t).length ≤
        (insertKV init p.1 (entryVal p.2)).length + t.length := ih _
      _ ≤ init.length + (p :: t).length := by
          have := length_insertKV_le init p.1 (entryVal p.2)
          simp only [List.length_cons]
          omega

/-- Every key produced by the dict-building fold is an initial key or the label
of a folded-in object. -/
theorem keys_foldl_insert_elim (l : List (String × ℚ)) :
    ∀ (init : List (String × JsonValue)) (k : String),
      k ∈ keys (l.foldl (fun d obj => insertKV d obj.1 (entryVal obj.2)) init) →
      k ∈ keys init ∨ k ∈ l.map Prod.fst := by
  induction l with
  | nil => intro init k h; exact Or.inl h
  | cons p t ih =>
    intro init k h
    rcases ih _ k h with h' | h'
    · rcases mem_keys_insertKV_elim init p.1 k (entryVal p.2) h' with h'' | h''
      · exact Or.inl h''
      · exact Or.inr (by simp [h''])
    · exact Or.inr (by simp [h'])

/-- The dict-building fold preserves distinctness of the keys. -/
theorem nodup_keys_foldl_insert (l : List (String × ℚ)) :
    ∀ init : List (String × JsonValue), (keys init).Nodup →
      (keys (l.foldl (fun d obj => insertKV d obj.1 (entryVal obj.2)) init)).Nodup := by
  induction l with
  | nil => intro init h; exact h
  | cons p t ih =>
    intro init h
    exact ih _ (nodup_keys_insertKV init p.1 (entryVal p.2) h)

/-- With pairwise-distinct labels, none colliding with the initial keys, the
dict-building fold is a plain append of one entry per object, in order. -/
theorem foldl_insert_of_nodup (l : List (String × ℚ)) :
    ∀ init : List (String × JsonValue), (l.map Prod.fst).Nodup →
      (∀ p ∈ l, p.1 ∉ keys init) →
      l.foldl (fun d obj => insertKV d obj.1 (entryVal obj.2)) init =
        init ++ l.map (fun p => (p.1, entryVal p.2)) := by
  induction l with
  | nil => intro init _ _; simp
  | cons p t ih =>
    intro init hnodup hfresh
    have hp : p.1 ∉ keys init := hfresh p (List.mem_cons_self p t)
    have hnodup' : (p.1 :: t.map Prod.fst).Nodup := by
      rw [← List.map_cons]
      exact hnodup
    have hhead : p.1 ∉ t.map Prod.fst := (List.nodup_cons.1 hnodup').1
    have htail : (t.map Prod.fst).Nodup := (List.nodup_cons.1 hnodup').2
    simp only [List.foldl_cons]
    rw [insertKV_of_not_mem init p.1 (entryVal p.2) hp]
    rw [ih _ htail ?fresh]
    · simp
    case fresh =>
      intro q hq
      have hkeys : keys (init ++ [(p.1, entryVal p.2)]) = keys init ++ [p.1] := by
        simp [keys]
      rw [hkeys]
      intro hmem
      rcases List.mem_append.1 hmem with hmem | hmem
      · exact hfresh q (List.mem_cons_of_mem p hq) hmem
      · simp at hmem
        exact hhead (hmem ▸ List.mem_map_of_mem Prod.fst hq)

/-- The dict built from the top-3 entries has at most three entries. -/
theorem organize_dict_length (xs : List (String × ℚ)) :
    (((sortByDist xs).take 3).foldl
      (fun d obj => insertKV d obj.1 (entryVal obj.2)) []).length ≤ 3 := by
  have h1 := length_foldl_insert_le ((sortByDist xs).take 3) []
  have h2 : ((sortByDist xs).take 3).length ≤ 3 := by
    rw [List.length_take]
    omega
  simp only [List.length_nil] at h1
  omega

/-- C6: the detection filter returns a subset of its input in the original
order; a detection is retained exactly when its box area reaches the threshold
(so an area exactly equal to the threshold is retained), and every removed
detection has area strictly below the threshold. -/
theorem detection_filter_split (dets : List Detection) (minArea : ℚ) :
    (detection_filter minArea dets).Sublist dets ∧
    (∀ d, d ∈ detection_filter minArea dets ↔ d ∈ dets ∧ minArea ≤ boxArea d) ∧
    (∀ d ∈ dets, d ∉ detection_filter minArea dets → boxArea d < minArea) := by
  refine ⟨List.filter_sublist dets, fun d => ?_, fun d hd hnot => ?_⟩
  · rw [detection_filter, List.mem_filter]
    simp [not_lt]
  · by_contra hlt
    push_neg at hlt
    apply hnot
    rw [detection_filter, List.mem_filter]
    simp [not_lt]
    exact ⟨hd, hlt⟩

/-- C9: the fusion loop emits exactly one `(label, distance)` pair per
surviving detection, in the original order, the distance being the depth
sample at the bounding-box center with the fixed radius `range_value = 3`;
a detection whose sample is invalid is still emitted. -/
theorem detect_objects_eq_map (dets : List Detection) (m : DepthMap) :
    detect_objects dets m = (detection_filter rect_threshold dets).map
      (fun d => (d.label, calculate_distance m range_value (centerX d) (centerY d))) := by
  induction dets with
  | nil => rfl
  | cons d rest ih =>
    by_cases h : boxArea d < rect_threshold
    · simp [detect_objects, detection_filter, List.filter_cons, h] at ih ⊢
      exact ih
    · simp [detect_objects, detection_filter, List.filter_cons, h] at ih ⊢
      exact ih

/-- C1 (amended): invalid-distance objects are not removed before ranking —
every object of the distance-sorted top three, invalid ones included, leaves
its label among the record's keys; on the spec's example the invalid object
occupies the first slot as `"NA" → "NA"`, `person` (0.10 m) still precedes
`chair` (0.50 m), and no placeholder is added. -/
theorem organize_keeps_top3_labels :
    (∀ xs r, organize_data xs = some r → ∀ p ∈ top3 xs, p.1 ∈ keys r) ∧
    organize_data [("chair", 500), ("person", 100), ("NA", 0)] =
      some [("NA", JsonValue.na), ("person", JsonValue.num (mkRat 1 10)),
        ("chair", JsonValue.num (mkRat 1 2))] := by
  constructor
  · intro xs r hr p hp
    simp only [organize_data] at hr
    have hlen := organize_dict_length xs
    have hshape := padLoop_some_eq 3 _ r hlen hr
    have hk : p.1 ∈ keys (((sortByDist xs).take 3).foldl
        (fun d obj => insertKV d obj.1 (entryVal obj.2)) []) :=
      label_mem_keys_foldl_insert ((sortByDist xs).take 3) [] p hp
    rw [hshape]
    have happ : keys ((((sortByDist xs).take 3).foldl
        (fun d obj => insertKV d obj.1 (entryVal obj.2)) []) ++
          padsFrom (((sortByDist xs).take 3).foldl
            (fun d obj => insertKV d obj.1 (entryVal obj.2)) []).length) =
        keys (((sortByDist xs).take 3).foldl
          (fun d obj => insertKV d obj.1 (entryVal obj.2)) []) ++
          keys (padsFrom (((sortByDist xs).take 3).foldl
            (fun d obj => insertKV d obj.1 (entryVal obj.2)) []).length) := by
      simp [keys]
    rw [happ]
    exact List.mem_append_left _ hk
  · decide

/-- C1 counterexample: on the spec's own example input the invalid-distance
object is not dropped — it sorts first (sentinel `0`) and occupies the first
ranked slot as the key `"NA"`, while the third slot holds `chair` rather than
the claimed placeholder. -/
theorem organize_invalid_in_slot_cex :
    organize_data [("chair", 500), ("person", 100), ("NA", 0)] =
      some [("NA", JsonValue.na), ("person", JsonValue.num (mkRat 1 10)),
        ("chair", JsonValue.num (mkRat 1 2))] ∧
    ("NA", JsonValue.na) ∈ [("NA", JsonValue.na),
      ("person", JsonValue.num (mkRat 1 10)),
      ("chair", JsonValue.num (mkRat 1 2))] ∧
    [("NA", JsonValue.na), ("person", JsonValue.num (mkRat 1 10)),
      ("chair", JsonValue.num (mkRat 1 2))].getLast? ≠
        some (naKey 2, JsonValue.na) := by
  refine ⟨by decide, by decide, by decide⟩

/-- C2 (amended): only the empty fused-object list yields the three pure
placeholders `NA_0, NA_1, NA_2`; a non-empty all-invalid list contributes its
labels as keys mapped to `"NA"`, and the padding indices continue from the
record's current size. -/
theorem organize_empty_placeholders :
    organize_data [] = some [(naKey 0, JsonValue.na), (naKey 1, JsonValue.na),
      (naKey 2, JsonValue.na)] ∧
    organize_data [("dog", 0)] =
      some [("dog", JsonValue.na), (naKey 1, JsonValue.na),
        (naKey 2, JsonValue.na)] :=
  ⟨by decide, by decide⟩

/-- C2 counterexample: a list with one invalid-distance object has zero valid
objects, yet the record keeps the object's label `"cat"` as a key and never
contains `NA_0`, so it is not the claimed triple of placeholders. -/
theorem organize_all_invalid_cex :
    organize_data [("cat", 0)] =
      some [("cat", JsonValue.na), ("NA_1", JsonValue.na),
        ("NA_2", JsonValue.na)] ∧
    naKey 0 ∉ keys [("cat", JsonValue.na), ("NA_1", JsonValue.na),
      ("NA_2", JsonValue.na)] :=
  ⟨by decide, by decide⟩

/-- C4 (amended): provided no input label is one of the generated placeholder
names `NA_0`, `NA_1`, `NA_2`, `organize_data` terminates with a record of
exactly three entries whose keys — real labels and placeholders together —
are pairwise distinct. -/
theorem organize_fresh_labels_total (xs : List (String × ℚ))
    (h : ∀ p ∈ xs, p.1 ≠ naKey 0 ∧ p.1 ≠ naKey 1 ∧ p.1 ≠ naKey 2) :
    ∃ r, organize_data xs = some r ∧ r.length = 3 ∧ (keys r).Nodup := by
  simp only [organize_data]
  have hlen := organize_dict_length xs
  have hkeysub : ∀ k ∈ keys (((sortByDist xs).take 3).foldl
      (fun d obj => insertKV d obj.1 (entryVal obj.2)) []), ∃ p ∈ xs, p.1 = k := by
    intro k hk
    rcases keys_foldl_insert_elim _ [] k hk with h' | h'
    · exact absurd h' (by simp [keys])
    · rcases List.mem_map.1 h' with ⟨p, hp, rfl⟩
      exact ⟨p, (sortByDist_perm xs).mem_iff.1 (List.mem_of_mem_take hp), rfl⟩
  have hfresh : ∀ j, (((sortByDist xs).take 3).foldl
      (fun d obj => insertKV d obj.1 (entryVal obj.2)) []).length ≤ j → j < 3 →
      naKey j ∉ keys (((sortByDist xs).take 3).foldl
        (fun d obj => insertKV d obj.1 (entryVal obj.2)) []) := by
    intro j _ hj3 hk
    rcases hkeysub _ hk with ⟨p, hp, hpk⟩
    have hne := h p hp
    interval_cases j
    · exact hne.1 hpk
    · exact hne.2.1 hpk
    · exact hne.2.2 hpk
  have hnodup0 : (keys (((sortByDist xs).take 3).foldl
      (fun d obj => insertKV d obj.1 (entryVal obj.2)) [])).Nodup :=
    nodup_keys_foldl_insert _ [] (by simp [keys])
  have hpadkeys : keys (padsFrom (((sortByDist xs).take 3).foldl
      (fun d obj => insertKV d obj.1 (entryVal obj.2)) []).length) =
      (List.range (3 - (((sortByDist xs).take 3).foldl
        (fun d obj => insertKV d obj.1 (entryVal obj.2)) []).length)).map
        (fun i => naKey ((((sortByDist xs).take 3).foldl
          (fun d obj => insertKV d obj.1 (entryVal obj.2)) []).length + i)) := by
    simp [keys, padsFrom, List.map_map, Function.comp]
  refine ⟨_, padLoop_succeeds 3 _ hlen (by omega) hfresh, ?_, ?_⟩
  · rw [List.length_append]
    have : (padsFrom (((sortByDist xs).take 3).foldl
        (fun d obj => insertKV d obj.1 (entryVal obj.2)) []).length).length =
        3 - (((sortByDist xs).take 3).foldl
          (fun d obj => insertKV d obj.1 (entryVal obj.2)) []).length := by
      simp [padsFrom]
    omega
  · have happ : keys ((((sortByDist xs).take 3).foldl
        (fun d obj => insertKV d obj.1 (entryVal obj.2)) []) ++
          padsFrom (((sortByDist xs).take 3).foldl
            (fun d obj => insertKV d obj.1 (entryVal obj.2)) []).length) =
        keys (((sortByDist xs).take 3).foldl
          (fun d obj => insertKV d obj.1 (entryVal obj.2)) []) ++
          keys (padsFrom (((sortByDist xs).take 3).foldl
            (fun d obj => insertKV d obj.1 (entryVal obj.2)) []).length) := by
      simp [keys]
    rw [happ]
    refine hnodup0.append ?pads ?disj
    case pads =>
      rw [hpadkeys]
      refine List.Nodup.map_on ?inj (List.nodup_range _)
      intro i hi j hj he
      by_contra hij
      rw [List.mem_range] at hi hj
      exact naKey_small_ne _ _ (by omega) (by omega) (by omega) he
    case disj =>
      intro a ha hb
      rw [hpadkeys] at hb
      rcases List.mem_map.1 hb with ⟨i, hi, rfl⟩
      rw [List.mem_range] at hi
      exact hfresh _ (by omega) (by omega) ha

/-- C4 witness: a one-detection input with an ordinary label terminates with a
record of three pairwise-distinct keys. -/
theorem organize_fresh_labels_total_witness :
    ∃ r, organize_data [("chair", 500)] = some r ∧ r.length = 3 ∧
      (keys r).Nodup :=
  organize_fresh_labels_total [("chair", 500)] (by decide)

/-- C4 counterexample: for the label `"NA_1"` the padding key collides with the
real label, the record never reaches three entries, and the `while` loop never
ends — `organize_data` does not return a record at all (with any fuel). -/
theorem organize_divergence_cex :
    organize_data [("NA_1", 500)] = none ∧
    (∀ fuel, padLoop fuel [("NA_1", JsonValue.num (mkRat 1 2))] = none) := by
  constructor
  · decide
  · intro fuel
    exact padLoop_stalled_none fuel _ (by decide) (by decide)

/-- C7: two fused objects sharing one label collapse to a single entry of the
keyed record, keeping the later-inserted (larger-distance) value, with no
disambiguation; the remaining slots are padded. -/
theorem organize_duplicate_label_overwrites (l : String) (d1 d2 : ℚ)
    (h1 : 0 < d1) (h12 : d1 ≤ d2) (hna1 : l ≠ naKey 1) (hna2 : l ≠ naKey 2) :
    organize_data [(l, d1), (l, d2)] =
      some [(l, JsonValue.num (pyRound2 (div1000 d2))), (naKey 1, JsonValue.na),
        (naKey 2, JsonValue.na)] := by
  have hd2 : d2 ≠ 0 := (lt_of_lt_of_le h1 h12).ne'
  have hsort : sortByDist [(l, d1), (l, d2)] = [(l, d1), (l, d2)] := by
    simp [sortByDist, List.insertionSort, List.orderedInsert, h12]
  simp only [organize_data, hsort, List.take_succ_cons, List.take_nil,
    List.foldl_cons, List.foldl_nil]
  rw [insertKV_of_not_mem [] l _ (by simp [keys]), List.nil_append]
  have hins2 : insertKV [(l, entryVal d1)] l (entryVal d2) = [(l, entryVal d2)] := by
    rw [insertKV, if_pos (by simp)]
    simp
  rw [hins2, show entryVal d2 = JsonValue.num (pyRound2 (div1000 d2)) from by
    simp [entryVal, hd2]]
  have hfresh : ∀ j, ([(l, JsonValue.num (pyRound2 (div1000 d2)))]).length ≤ j →
      j < 3 → naKey j ∉
        keys [(l, JsonValue.num (pyRound2 (div1000 d2)))] := by
    intro j hj hj3
    have hj1 : 1 ≤ j := by simpa using hj
    clear hj
    interval_cases j
    · simp [keys]
      exact fun he => hna1 he.symm
    · simp [keys]
      exact fun he => hna2 he.symm
  rw [padLoop_succeeds 3 _ (by simp) (by simp) hfresh]
  rw [show ([(l, JsonValue.num (pyRound2 (div1000 d2)))]).length = 1 from rfl,
    padsFrom_succ 1 (by omega), padsFrom_succ 2 (by omega),
    padsFrom_of_full 3 le_rfl]
  rfl

/-- C7 witness: two `person` detections at 100 mm and 200 mm collapse to one
`person` entry carrying the later value, 0.20 m. -/
theorem organize_duplicate_label_overwrites_witness :
    organize_data [("person", 100), ("person", 200)] =
      some [("person", JsonValue.num (pyRound2 (div1000 200))),
        (naKey 1, JsonValue.na), (naKey 2, JsonValue.na)] :=
  organize_duplicate_label_overwrites "person" 100 200 (by decide) (by decide)
    (by decide) (by decide)

/-- C8 (amended): the code sorts all entries (invalid ones included) ascending
by distance with a stable sort — ties keep their input order — and when the
top-3 labels are pairwise distinct the record lists them in exactly that
sorted order followed by the placeholder tail; the keyed overwrite on
duplicate labels is what the counterexample shows breaking slot monotonicity. -/
theorem organize_sorted_stable_split :
    (∀ xs, ((sortByDist xs).map Prod.snd).Sorted (· ≤ ·)) ∧
    (∀ xs dq, (sortByDist xs).filter (fun pq => pq.2 == dq) =
      xs.filter (fun pq => pq.2 == dq)) ∧
    (∀ xs r, (xs.map Prod.fst).Nodup → organize_data xs = some r →
      r = (top3 xs).map (fun p => (p.1, entryVal p.2)) ++
        padsFrom (top3 xs).length) ∧
    organize_data [("b", 200), ("a", 100)] =
      some [("a", JsonValue.num (mkRat 1 10)), ("b", JsonValue.num (mkRat 1 5)),
        (naKey 2, JsonValue.na)] := by
  refine ⟨sortByDist_sorted, sortByDist_stable, ?shape, by decide⟩
  intro xs r hnodup hr
  simp only [organize_data] at hr
  have hnodup3 : ((top3 xs).map Prod.fst).Nodup := by
    have hperm : ((sortByDist xs).map Prod.fst).Perm (xs.map Prod.fst) :=
      (sortByDist_perm xs).map Prod.fst
    have hsn : ((sortByDist xs).map Prod.fst).Nodup := hperm.nodup_iff.2 hnodup
    rw [top3, List.map_take]
    exact List.Nodup.sublist (List.take_sublist 3 _) hsn
  have hfold := foldl_insert_of_nodup (top3 xs) [] hnodup3 (by simp [keys])
  rw [show (sortByDist xs).take 3 = top3 xs from rfl] at hr
  rw [hfold, List.nil_append] at hr
  have hlen : ((top3 xs).map fun p => (p.1, entryVal p.2)).length ≤ 3 := by
    rw [List.length_map, top3, List.length_take]
    omega
  have hshape := padLoop_some_eq 3 _ r hlen hr
  rw [hshape, List.length_map]

/-- C8 counterexample: with the duplicate label `a` at 100 mm and 300 mm the
keyed overwrite leaves the slot sequence 0.30 m, 0.20 m — the record's ranked
slots are not a non-decreasing distance sequence. -/
theorem organize_slots_unsorted_cex :
    organize_data [("a", 100), ("b", 200), ("a", 300)] =
      some [("a", JsonValue.num (mkRat 3 10)), ("b", JsonValue.num (mkRat 1 5)),
        (naKey 2, JsonValue.na)] ∧
    ¬ ((mkRat 3 10 : ℚ) ≤ mkRat 1 5) :=
  ⟨by decide, by decide⟩
